import Mathlib

/-!
Verification of the CompVision mobile-robot estimator core against its
specification.  The definitions below shallowly embed the analysis code:
pixels and masks are lists, machine floats are modelled by exact rationals
(the comparisons the code performs are far from any rounding boundary),
and the stateful per-frame loop becomes explicit state passing.
-/

namespace CompVision

/-! ## Segmenter (`src/strategy.py`, `RedColorThresholdStrategy.apply`)

The code reads the three channels of a BGR pixel, forms `Y = R+G+B`,
computes chromaticities `r = R/Y` and `g = G/Y` with `np.divide(..., where=Y!=0)`
writing `0` where `Y == 0`, and marks the pixel foreground iff
`r >= 0.5 and g <= 0.2`. -/

/-- One pixel's classification, channels given in the frame's BGR order. -/
def classifyPixel (B G R : ℕ) : Bool :=
  let Y : ℚ := (R : ℚ) + (G : ℚ) + (B : ℚ)
  let r : ℚ := if Y = 0 then 0 else (R : ℚ) / Y
  let g : ℚ := if Y = 0 then 0 else (G : ℚ) / Y
  decide (r ≥ 1/2) && decide (g ≤ 1/5)

/-- A BGR pixel. -/
structure Pixel where
  b : ℕ
  g : ℕ
  r : ℕ
deriving DecidableEq, Repr

/-- The strategy's `apply`: per-pixel thresholding of the whole frame. -/
def applyThreshold (frame : List (List Pixel)) : List (List Bool) :=
  frame.map (fun row => row.map (fun p => classifyPixel p.b p.g p.r))

/-! ## Angle stabilizer (`src/frame_processor.py`, lines 88–94)

After appending the newest raw angle, the code compares `angles[-1]` with
`angles[-2]`; if the absolute difference exceeds 120 it overwrites the last
entry with `(angles[-2] + (angles[-3] if len > 2 else angles[-2])) / 2`. -/

/-- One stabilization step on the angle list (newest angle last). -/
def stabilizeStep (angles : List ℚ) : List ℚ :=
  match angles.reverse with
  | a1 :: a2 :: rest =>
      if |a1 - a2| > 120 then
        let a3 := match rest with
          | a3 :: _ => a3
          | [] => a2
        (((a2 + a3) / 2) :: a2 :: rest).reverse
      else angles
  | _ => angles

/-- Appending a raw angle then running the in-place correction, as the
per-frame loop does. -/
def appendAngle (angles : List ℚ) (raw : ℚ) : List ℚ :=
  stabilizeStep (angles ++ [raw])

/-- Processing a whole stream of raw angles through append-then-correct. -/
def processAngles (raws : List ℚ) : List ℚ :=
  raws.foldl appendAngle []

/-! ## Trajectory tracker (`src/observer.py`, `CentroidTracker`) -/

/-- `CentroidTracker.update`: append the centroid to the history. -/
def trackerUpdate (history : List (ℚ × ℚ)) (c : ℚ × ℚ) : List (ℚ × ℚ) :=
  history ++ [c]

/-- History after a sequence of `update` calls starting from a given state. -/
def trackerRun (history : List (ℚ × ℚ)) (cs : List (ℚ × ℚ)) : List (ℚ × ℚ) :=
  cs.foldl trackerUpdate history

/-- Squared displacement between the last two history entries, when the
history has at least two entries (`src/frame_processor.py`, lines 99–119:
`dx = h[-1][0]-h[-2][0]`, `dy = h[-1][1]-h[-2][1]`,
`speed = sqrt(dx**2+dy**2)`); `none` models Python's `None` when
`len(history) <= 1`. The speed itself is the square root of this value. -/
def instSpeedSq (history : List (ℚ × ℚ)) : Option ℚ :=
  match history.reverse with
  | b :: a :: _ => some ((b.1 - a.1) ^ 2 + (b.2 - a.2) ^ 2)
  | _ => none

/-! ## Moment analysis (`src/frame_processor.py`, lines 64–86)

The code forms `blobs = labels > 0` (a boolean mask), computes
`m00 = np.sum(blobs)`, then — with no guard on `m00 == 0` — divides:
`uc = np.sum(X*blobs)/m00`, `vc = np.sum(Y*blobs)/m00` where `X`, `Y` are
the meshgrid of column and row indices, notifies every observer with
`(uc, vc)`, and appends the new angle.  Division by the rational `m00`
mirrors the float division (with Lean's `x/0 = 0` standing in for the
NaN that NumPy produces when `m00 == 0`; the key point for the claims is
which operations the code performs, not the NaN payload). -/

/-- Zeroth moment: number of foreground pixels. -/
def m00 (mask : List (List Bool)) : ℕ :=
  (mask.map (fun row => row.count true)).sum

/-- Sum of the column indices of one row's foreground pixels, the row
scanned starting at column index `k`. -/
def rowSumXFrom (k : ℕ) : List Bool → ℕ
  | [] => 0
  | b :: bs => (if b then k else 0) + rowSumXFrom (k + 1) bs

/-- First moment in x: `np.sum(X * blobs)`. -/
def sumX (mask : List (List Bool)) : ℕ :=
  (mask.map (fun row => rowSumXFrom 0 row)).sum

/-- Row-index-weighted foreground counts, rows scanned starting at row
index `k`. -/
def sumYFrom (k : ℕ) : List (List Bool) → ℕ
  | [] => 0
  | row :: rest => k * row.count true + sumYFrom (k + 1) rest

/-- First moment in y: `np.sum(Y * blobs)`. -/
def sumY (mask : List (List Bool)) : ℕ :=
  sumYFrom 0 mask

/-- Centroid x-coordinate `uc = np.sum(X*blobs)/m00`. -/
def centroidX (mask : List (List Bool)) : ℚ :=
  (sumX mask : ℚ) / (m00 mask : ℚ)

/-- Centroid y-coordinate `vc = np.sum(Y*blobs)/m00`. -/
def centroidY (mask : List (List Bool)) : ℚ :=
  (sumY mask : ℚ) / (m00 mask : ℚ)

/-- Per-frame state the processor mutates: the tracker's centroid history
(written through `_notify`) and the angle list. -/
structure ProcState where
  history : List (ℚ × ℚ)
  angles : List ℚ
deriving DecidableEq, Repr

/-- The moment/notify/eig/angle portion of `FrameProcessorFacade.process`,
applied to the foreground mask of one frame.  The source has no
`m00 == 0` branch: it always performs the divisions and always calls
`self._notify((uc, vc))`.  It then builds the central-moment inertia
matrix and calls `np.linalg.eig` on it (line 80).  When `m00 == 0` every
central moment is the float `0/0 = NaN`, and `np.linalg.eig` begins with
an `_assert_finite` check that raises `LinAlgError` on a NaN entry, so
the uncaught exception propagates out of `process` — after the
notification has mutated the tracker but before `self.angles.append`
(line 86) runs; when `m00 > 0` all entries are finite and eig succeeds.
The `if` below embeds exactly that `_assert_finite` dichotomy:
`Except.error` carries the state at the point the exception escapes.
The raw angle is a parameter: it comes from the eigen-decomposition plus
`atan2` on floats, which the exact embedding leaves abstract; the claims
below concern which state updates happen, not the raw angle's value. -/
def processMoments (mask : List (List Bool)) (raw : ℚ) (s : ProcState) :
    Except ProcState ProcState :=
  let s1 : ProcState :=
    { history := trackerUpdate s.history (centroidX mask, centroidY mask)
      angles := s.angles }
  if m00 mask = 0 then
    Except.error s1
  else
    Except.ok { s1 with angles := appendAngle s1.angles raw }

/-! ## Sampling loop (`src/mobile_robot_estimator.py`, lines 127–144)

`run` reads frames while they last; a frame is processed iff
`frame_count % sample_interval == 0`, and `frame_count` increments by one
per frame read, starting at 0. -/

/-- Indices of the frames `run` processes out of `total` frames. -/
def processedFrames (total N : ℕ) : List ℕ :=
  (List.range total).filter (fun k => k % N == 0)

/-- Number of processed frames. -/
def processedCount (total N : ℕ) : ℕ :=
  (processedFrames total N).length

/-! ## Video-writer singleton (`src/singleton.py`, `VideoWriterSingleton.__new__`) -/

/-- The writer's configuration fixed by `_initialize`. -/
structure Writer where
  filename : String
  fps : ℕ
deriving DecidableEq, Repr

/-- `__new__`: if the class-level `_instance` is `None`, create and store a
new writer from the arguments; otherwise return the stored instance
unchanged (the arguments are not consulted). Returns the instance handed
to the caller together with the new class state. -/
def newSingleton (inst : Option Writer) (filename : String) (fps : ℕ) :
    Writer × Option Writer :=
  match inst with
  | none =>
      let w : Writer := { filename := filename, fps := fps }
      (w, some w)
  | some w => (w, some w)

/-- Class state after a sequence of constructions. -/
def constructAll (inst : Option Writer) (calls : List (String × ℕ)) :
    Option Writer :=
  calls.foldl (fun s c => (newSingleton s c.1 c.2).2) inst

/-! ## Distance accumulation (`src/mobile_robot_estimator.py`, lines 132–139)

When `process` returned a speed and the history has more than one entry,
`run` adds `((dx**2 + dy**2) ** 0.5)` — the Euclidean displacement between
the last two history entries — to `_total_distance`; otherwise the
accumulator is untouched. -/

/-- Euclidean displacement between two centroids. -/
noncomputable def eucDist (a b : ℚ × ℚ) : ℝ :=
  Real.sqrt (((b.1 - a.1) ^ 2 + (b.2 - a.2) ^ 2 : ℚ) : ℝ)

/-- One frame's update of `_total_distance`. -/
noncomputable def stepDistance (total : ℝ) (speed : Option ℚ)
    (history : List (ℚ × ℚ)) : ℝ :=
  match speed with
  | none => total
  | some _ =>
      match history.reverse with
      | b :: a :: _ => total + eucDist a b
      | _ => total

/-! ## Helper lemmas -/

/-- Unfolding of one stabilization step on a history of length at least
two, written from the right end of the list. -/
theorem stabilizeStep_append (prev : List ℚ) (a2 a1 : ℚ) :
    stabilizeStep (prev ++ [a2, a1]) =
      prev ++ [a2, if |a1 - a2| > 120 then (a2 + prev.getLastD a2) / 2 else a1] := by
  cases hp : prev.reverse with
  | nil =>
      have hprev : prev = [] := by simpa using congrArg List.reverse hp
      subst hprev
      by_cases h : |a1 - a2| > 120
      · simp [stabilizeStep, h, List.getLastD]
      · simp [stabilizeStep, h]
  | cons a3 t =>
      have hprev : prev = t.reverse ++ [a3] := by
        have := congrArg List.reverse hp
        simpa using this
      subst hprev
      by_cases h : |a1 - a2| > 120
      · simp [stabilizeStep, h, List.getLastD_concat]
      · simp [stabilizeStep, h]

/-- A stabilization step on a singleton history does nothing. -/
theorem stabilizeStep_singleton (a : ℚ) : stabilizeStep [a] = [a] := by
  unfold stabilizeStep
  simp

/-- The tracker's fold of updates appends the received centroids in
order. -/
theorem trackerRun_eq_append (cs : List (ℚ × ℚ)) :
    ∀ h : List (ℚ × ℚ), trackerRun h cs = h ++ cs := by
  induction cs with
  | nil => intro h; simp [trackerRun]
  | cons c cs ih =>
      intro h
      simp only [trackerRun, List.foldl_cons] at *
      rw [ih (trackerUpdate h c)]
      simp [trackerUpdate]

end CompVision

namespace CompVision

/-! ## Claim theorems -/

/-- C2: with at least two entries, the stabilizer compares the latest raw
angle `a1` with the preceding corrected angle `a2`; on a jump above 120°
it replaces the latest entry with the average of `a2` and the corrected
angle before it (`a2` itself when no earlier sample exists), otherwise
leaves it unchanged; and the sequence [10, 170, 12] becomes
[10, 10, 12]. -/
theorem angle_stabilizer_policy :
    (∀ (prev : List ℚ) (a2 a1 : ℚ),
        appendAngle (prev ++ [a2]) a1 =
          prev ++ [a2, if |a1 - a2| > 120 then (a2 + prev.getLastD a2) / 2 else a1]) ∧
    processAngles [10, 170, 12] = [10, 10, 12] := by
  constructor
  · intro prev a2 a1
    have : (prev ++ [a2]) ++ [a1] = prev ++ [a2, a1] := by simp
    rw [appendAngle, this, stabilizeStep_append]
  · norm_num [processAngles, appendAngle, stabilizeStep]

/-- C8: appending a raw angle and running the stabilization step leaves
every earlier entry of the angle sequence exactly as it was; only the
final (just-appended) slot may change. -/
theorem angle_stabilizer_mutates_only_last :
    ∀ (prev : List ℚ) (raw : ℚ), ∃ x, appendAngle prev raw = prev ++ [x] := by
  intro prev raw
  cases hp : prev.reverse with
  | nil =>
      have : prev = [] := by simpa using congrArg List.reverse hp
      subst this
      exact ⟨raw, by simpa [appendAngle] using stabilizeStep_singleton raw⟩
  | cons a2 t =>
      have hpr : prev = t.reverse ++ [a2] := by
        have := congrArg List.reverse hp
        simpa using this
      subst hpr
      refine ⟨if |raw - a2| > 120 then (a2 + t.reverse.getLastD a2) / 2 else raw, ?_⟩
      have h := stabilizeStep_append t.reverse a2 raw
      simpa [appendAngle] using h

/-- C6: `update` appends the centroid and `get_history` returns all
centroids in arrival order; after (1,1), (2,2), (4,6) the history is
exactly those three, and the Euclidean distance between the last two is
√20. -/
theorem tracker_history_order :
    (∀ (cs : List (ℚ × ℚ)), trackerRun [] cs = cs) ∧
    trackerRun [] [(1, 1), (2, 2), (4, 6)] = [(1, 1), (2, 2), (4, 6)] ∧
    eucDist (2, 2) (4, 6) = Real.sqrt 20 := by
  refine ⟨fun cs => by simpa using trackerRun_eq_append cs [], ?_, ?_⟩
  · simpa using trackerRun_eq_append [(1, 1), (2, 2), (4, 6)] []
  · unfold eucDist
    norm_num

/-- C7: with fewer than two history entries the speed query yields `none`
(absence, not an error); with at least two entries the speed is the
Euclidean distance between the last two entries (its square being the
value `instSpeedSq` computes). -/
theorem speed_query (history : List (ℚ × ℚ)) :
    (history.length < 2 → instSpeedSq history = none) ∧
    (∀ (pre : List (ℚ × ℚ)) (a b : ℚ × ℚ), history = pre ++ [a, b] →
      instSpeedSq history = some ((b.1 - a.1) ^ 2 + (b.2 - a.2) ^ 2) ∧
      Option.map (fun q => Real.sqrt ((q : ℚ) : ℝ)) (instSpeedSq history)
        = some (eucDist a b)) := by
  constructor
  · intro hlen
    match history, hlen with
    | [], _ => rfl
    | [x], _ => rfl
  · rintro pre a b rfl
    have hrev : (pre ++ [a, b]).reverse = b :: a :: pre.reverse := by simp
    constructor
    · rw [instSpeedSq, hrev]
    · rw [instSpeedSq, hrev]
      rfl

/-- C7 witness: the theorem applied at the empty history and at a concrete
two-entry history. -/
theorem speed_query_witness :
    instSpeedSq ([] : List (ℚ × ℚ)) = none ∧
    instSpeedSq [(2, 2), (4, 6)] = some 20 := by
  constructor
  · exact (speed_query []).1 (by norm_num)
  · have h := ((speed_query [(2, 2), (4, 6)]).2 [] (2, 2) (4, 6) rfl).1
    rw [h]
    norm_num

/-- Once the class-level instance is set, further constructions leave it
untouched. -/
theorem constructAll_some (calls : List (String × ℕ)) :
    ∀ w : Writer, constructAll (some w) calls = some w := by
  induction calls with
  | nil => intro w; rfl
  | cons c cs ih => intro w; simpa [constructAll, newSingleton] using ih w

/-- C9: after the first construction fixes the writer to the first
filename and fps, every later construction — whatever arguments it
passes — returns that same instance, still configured with the original
filename and fps. -/
theorem singleton_reuses_first_instance :
    ∀ (f : String) (fps : ℕ) (calls : List (String × ℕ)) (f2 : String) (fps2 : ℕ),
      (newSingleton none f fps).1 = Writer.mk f fps ∧
      constructAll ((newSingleton none f fps).2) calls = some (Writer.mk f fps) ∧
      (newSingleton (constructAll ((newSingleton none f fps).2) calls) f2 fps2).1
        = Writer.mk f fps := by
  intro f fps calls f2 fps2
  refine ⟨rfl, ?_, ?_⟩
  · simpa [newSingleton] using constructAll_some calls (Writer.mk f fps)
  · rw [show (newSingleton none f fps).2 = some (Writer.mk f fps) from rfl,
      constructAll_some calls (Writer.mk f fps)]
    rfl

/-- C10: each per-frame update of the running total distance either leaves
it unchanged or adds a nonnegative Euclidean displacement, so the total
never decreases. -/
theorem total_distance_monotone (total : ℝ) (speed : Option ℚ)
    (history : List (ℚ × ℚ)) :
    total ≤ stepDistance total speed history ∧
    (stepDistance total speed history = total ∨
      ∃ a b, stepDistance total speed history = total + eucDist a b ∧
        0 ≤ eucDist a b) := by
  cases speed with
  | none => exact ⟨le_refl _, Or.inl rfl⟩
  | some s =>
      cases hrev : history.reverse with
      | nil => exact ⟨le_of_eq (by simp [stepDistance, hrev]), Or.inl (by simp [stepDistance, hrev])⟩
      | cons b t =>
          cases t with
          | nil =>
              exact ⟨le_of_eq (by simp [stepDistance, hrev]),
                Or.inl (by simp [stepDistance, hrev])⟩
          | cons a t' =>
              have hsq : 0 ≤ eucDist a b := Real.sqrt_nonneg _
              have hstep : stepDistance total (some s) history = total + eucDist a b := by
                simp [stepDistance, hrev]
              exact ⟨by rw [hstep]; linarith, Or.inr ⟨a, b, hstep, hsq⟩⟩

/-- C5: a pixel is marked foreground iff its total intensity is nonzero,
its red chromaticity is at least 1/2 and its green chromaticity is at most
1/5; in particular every zero-intensity pixel is background.  The first
conjunct ties the whole-frame strategy to the per-pixel rule. -/
theorem segmenter_chromaticity_rule :
    (∀ (frame : List (List Pixel)) (i j : ℕ) (p : Pixel),
        (frame[i]?.bind fun row => row[j]?) = some p →
        ((applyThreshold frame)[i]?.bind fun row => row[j]?)
          = some (classifyPixel p.b p.g p.r)) ∧
    (∀ B G R : ℕ, classifyPixel B G R = true ↔
        ((R : ℚ) + G + B ≠ 0 ∧ 1/2 ≤ (R : ℚ) / ((R : ℚ) + G + B) ∧
          (G : ℚ) / ((R : ℚ) + G + B) ≤ 1/5)) ∧
    (∀ B G R : ℕ, (R : ℚ) + G + B = 0 → classifyPixel B G R = false) := by
  refine ⟨?_, ?_, ?_⟩
  · intro frame i j p hp
    cases hrow : frame[i]? with
    | none => simp [hrow] at hp
    | some row =>
        have hpix : row[j]? = some p := by simpa [hrow] using hp
        simp [applyThreshold, List.getElem?_map, hrow, hpix]
  · intro B G R
    by_cases h : (R : ℚ) + G + B = 0
    · simp only [classifyPixel, h, if_pos]
      norm_num
    · simp only [classifyPixel, h, if_neg, ite_false]
      constructor
      · intro hb
        have := Bool.and_eq_true_iff.mp hb
        exact ⟨h, by simpa using this.1, by simpa using this.2⟩
      · intro ⟨_, h1, h2⟩
        exact Bool.and_eq_true_iff.mpr ⟨by simpa using h1, by simpa using h2⟩
  · intro B G R h
    simp only [classifyPixel, h, if_pos]
    norm_num

/-- C5 witness: the theorem applied at a fully red pixel inside a concrete
one-pixel frame and at the zero-intensity pixel. -/
theorem segmenter_chromaticity_rule_witness :
    ((applyThreshold [[Pixel.mk 0 0 200]])[0]?.bind fun row => row[0]?)
      = some (classifyPixel 0 0 200) ∧
    classifyPixel 0 0 0 = false := by
  constructor
  · exact segmenter_chromaticity_rule.1 [[Pixel.mk 0 0 200]] 0 0 (Pixel.mk 0 0 200) rfl
  · exact segmenter_chromaticity_rule.2.2 0 0 0 (by norm_num)

/-- C3: with sampling interval `N ≥ 1`, the loop processes frame `k` iff
`k % N = 0`, and the number of processed frames out of `total` is
`ceil(total / N) = (total + N - 1) / N`. -/
theorem sampling_processes_ceil (total N : ℕ) (hN : 1 ≤ N) :
    processedCount total N = (total + N - 1) / N ∧
    ∀ k, k ∈ processedFrames total N ↔ (k < total ∧ k % N = 0) := by
  constructor
  · induction total with
    | zero =>
        have : (N - 1) / N = 0 := Nat.div_eq_of_lt (by omega)
        simpa [processedCount, processedFrames] using this.symm
    | succ t ih =>
        have hsplit : processedCount (t + 1) N =
            processedCount t N + (if t % N = 0 then 1 else 0) := by
          simp only [processedCount, processedFrames, List.range_succ,
            List.filter_append, List.length_append]
          by_cases h : t % N = 0 <;> simp [h]
        have hdvd : (N ∣ t + N) ↔ t % N = 0 := by
          rw [Nat.dvd_add_self_right]
          exact Nat.dvd_iff_mod_eq_zero
        have hceil : (t + 1 + N - 1) / N = (t + N - 1) / N + (if t % N = 0 then 1 else 0) := by
          have h1 : t + 1 + N - 1 = (t + N - 1) + 1 := by omega
          have h2 : t + N - 1 + 1 = t + N := by omega
          rw [h1, Nat.succ_div, h2]
          by_cases h : t % N = 0
          · rw [if_pos (hdvd.mpr h), if_pos h]
          · rw [if_neg (fun hc => h (hdvd.mp hc)), if_neg h]
        rw [hsplit, ih, hceil]
  · intro k
    simp [processedFrames, List.mem_filter, List.mem_range, Nat.beq_eq_true_eq]

/-- C3 witness: the theorem applied at 5 frames with interval 2. -/
theorem sampling_processes_ceil_witness :
    (1 : ℕ) ≤ 2 ∧ processedCount 5 2 = 3 ∧ (4 ∈ processedFrames 5 2 ↔ 4 < 5 ∧ 4 % 2 = 0) := by
  have h := sampling_processes_ceil 5 2 (by norm_num)
  exact ⟨by norm_num, by simpa using h.1, h.2 4⟩

/-- C1 (evaluation at the failing input): for an all-background mask the
code computes `m00 = 0`, yet `FrameProcessorFacade.process` has no
zero-area branch and no `NoObjectFound` anywhere — it performs the
divisions by zero (NumPy `0/0` = NaN; `0/0 = 0` in the exact model),
publishes the resulting centroid to the tracker, and then aborts with an
uncaught `LinAlgError` from `np.linalg.eig` on the all-NaN inertia
matrix, before the angle append ever runs.  So the publication is *not*
skipped, and the frame is not recoverably skipped either: the error that
occurs is a fatal crash of the whole run, not the contracted
`NoObjectFound`. -/
theorem zero_mask_still_published :
    m00 [[false, false], [false, false]] = 0 ∧
    processMoments [[false, false], [false, false]] 0
        { history := [], angles := [] }
      = Except.error { history := [(0, 0)], angles := [] } := by
  refine ⟨rfl, ?_⟩
  simp only [processMoments, if_pos]
  norm_num [trackerUpdate, centroidX, centroidY, m00, sumX, sumY,
    rowSumXFrom, sumYFrom]

/-- Every foreground column index in a row scanned from `k` is below
`k + length`, so the index sum is bounded accordingly. -/
theorem rowSumXFrom_le (row : List Bool) :
    ∀ k, rowSumXFrom k row + row.count true ≤ (k + row.length) * row.count true := by
  induction row with
  | nil => intro k; simp [rowSumXFrom]
  | cons b bs ih =>
      intro k
      have h := ih (k + 1)
      cases b
      · have hc : List.count true (false :: bs) = List.count true bs := by simp
        have hl : (false :: bs).length = bs.length + 1 := rfl
        have hr : rowSumXFrom k (false :: bs) = rowSumXFrom (k + 1) bs := by
          simp [rowSumXFrom]
        rw [hc, hl, hr]
        nlinarith [h]
      · have hc : List.count true (true :: bs) = List.count true bs + 1 := by simp
        have hl : (true :: bs).length = bs.length + 1 := rfl
        have hr : rowSumXFrom k (true :: bs) = k + rowSumXFrom (k + 1) bs := by
          simp [rowSumXFrom]
        rw [hc, hl, hr]
        nlinarith [h]

/-- Bound on the x-moment: with all rows of width `C`, the sum of
foreground column indices stays below `(C - 1) · m00`, stated without
truncated subtraction. -/
theorem sumX_add_m00_le (mask : List (List Bool)) (C : ℕ)
    (hC : ∀ row ∈ mask, row.length = C) :
    sumX mask + m00 mask ≤ C * m00 mask := by
  induction mask with
  | nil => simp [sumX, m00]
  | cons row rest ih =>
      have hrow : row.length = C := hC row (by simp)
      have hrest := ih (fun r hr => hC r (by simp [hr]))
      have h1 := rowSumXFrom_le row 0
      rw [hrow] at h1
      simp only [sumX, m00, List.map_cons, List.sum_cons, zero_add] at *
      nlinarith [h1, hrest]

/-- Bound on the y-moment: row indices scanned from `k` stay below
`k + number of rows`. -/
theorem sumYFrom_add_m00_le (mask : List (List Bool)) :
    ∀ k, sumYFrom k mask + m00 mask ≤ (k + mask.length) * m00 mask := by
  induction mask with
  | nil => intro k; simp [sumYFrom, m00]
  | cons row rest ih =>
      intro k
      have h := ih (k + 1)
      simp only [sumYFrom, m00, List.map_cons, List.sum_cons, List.length_cons] at *
      nlinarith [h]

/-- C4: whenever the mask over an `R × C` grid has `m00 > 0`, the computed
centroid lies inside the pixel-index bounds: `0 ≤ cx ≤ C - 1` and
`0 ≤ cy ≤ R - 1`. -/
theorem centroid_within_bounds (mask : List (List Bool)) (C : ℕ)
    (hC : ∀ row ∈ mask, row.length = C) (h0 : 0 < m00 mask) :
    0 ≤ centroidX mask ∧ centroidX mask ≤ (C : ℚ) - 1 ∧
    0 ≤ centroidY mask ∧ centroidY mask ≤ ((mask.length : ℚ)) - 1 := by
  have hmQ : (0 : ℚ) < (m00 mask : ℚ) := by exact_mod_cast h0
  have hx := sumX_add_m00_le mask C hC
  have hy := sumYFrom_add_m00_le mask 0
  have hxQ : (sumX mask : ℚ) + (m00 mask : ℚ) ≤ (C : ℚ) * (m00 mask : ℚ) := by
    exact_mod_cast hx
  have hy' : sumY mask + m00 mask ≤ mask.length * m00 mask := by
    simpa [sumY] using hy
  have hyQ : (sumY mask : ℚ) + (m00 mask : ℚ) ≤ (mask.length : ℚ) * (m00 mask : ℚ) := by
    exact_mod_cast hy'
  refine ⟨?_, ?_, ?_, ?_⟩
  · exact div_nonneg (by positivity) (le_of_lt hmQ)
  · rw [centroidX, div_le_iff₀ hmQ]
    nlinarith [hxQ]
  · exact div_nonneg (by positivity) (le_of_lt hmQ)
  · rw [centroidY, div_le_iff₀ hmQ]
    nlinarith [hyQ]

/-- C4 witness: the theorem applied at a concrete 2×2 mask with three
foreground pixels. -/
theorem centroid_within_bounds_witness :
    0 ≤ centroidX [[false, true], [true, true]] ∧
    centroidX [[false, true], [true, true]] ≤ (2 : ℚ) - 1 ∧
    0 ≤ centroidY [[false, true], [true, true]] ∧
    centroidY [[false, true], [true, true]] ≤ (2 : ℚ) - 1 := by
  have h := centroid_within_bounds [[false, true], [true, true]] 2
    (by decide) (by decide)
  simpa using h

end CompVision
